import Mathlib

/-!
# Lattice light sheet deconvolution utilities

A shallow embedding of `src/c/RLDecon_CPU/boostfs.cpp` (path bookkeeping around the
global `dataDir`) and of `src/c/decon/decon.h` (the `RichardsonLucy` wrapper that
configures an ITK deconvolution filter).

A `std::string` is a list of `char`s; a `boost::filesystem::path` is its path name,
again a list of `char`s.  Machine integers are `Nat`/`Int` with explicit wrap-around:
`std::string::npos` is `2^64 - 1`, `int` is 32 bit, `size_t` is 64 bit.
Output written to `std::cout` is not part of the model.
-/

namespace Decon

/-- A `std::string`: a sequence of `char`s. -/
abbrev CString := List Char

/-- A `boost::filesystem::path`, represented by its path name. -/
abbrev Path := List Char

/-- The exceptions the modelled code can raise. -/
inductive CppError where
  | out_of_range
  | filesystem_error
  deriving DecidableEq, Repr

/-! ## `std::string` operations used by the source -/

/-- The value `std::string::npos`, the largest `size_t`. -/
def npos : Nat := 2 ^ 64 - 1

/-- Largest index of `s` holding a character of `chars`, if there is one. -/
def lastIndexIn (chars : List Char) : CString → Option Nat
  | [] => none
  | c :: cs =>
    match lastIndexIn chars cs with
    | some i => some (i + 1)
    | none => if c ∈ chars then some 0 else none

/-- The member `std::string::find_last_of(chars)`: the largest index holding any one
character of `chars`, and `npos` when there is none. -/
def find_last_of (s chars : CString) : Nat :=
  (lastIndexIn chars s).getD npos

/-- Conversion of a `size_t` value to a 32 bit `int` (two's complement wrap-around). -/
def toInt32 (n : Nat) : Int :=
  if n % 2 ^ 32 < 2 ^ 31 then ((n % 2 ^ 32 : Nat) : Int) else ((n % 2 ^ 32 : Nat) : Int) - 2 ^ 32

/-- Conversion of an `int` to the 64 bit `size_t` (reduction modulo `2^64`). -/
def toSizeT (i : Int) : Nat :=
  (i % 2 ^ 64).toNat

/-- The member `std::string::insert(index, str)`: throws `out_of_range` when
`index > size()`, otherwise puts `str` in front of the character at `index`. -/
def string_insert (s : CString) (index : Nat) (str : CString) : Except CppError CString :=
  if index > s.length then .error .out_of_range
  else .ok (s.take index ++ str ++ s.drop index)

/-! ## `boost::filesystem::path` operations used by the source

Boost.Filesystem is an external library; the operations below follow its version 3
behaviour on POSIX for path names that do not begin with a `//` root name. -/

/-- The separator test `is_separator`: on POSIX only the slash separates. -/
def is_separator (c : Char) : Bool := c == '/'

/-- The characters after the last separator of a path name. -/
def lastElement (p : Path) : Path :=
  (p.reverse.takeWhile (fun c => !is_separator c)).reverse

/-- The path name up to and including its last separator. -/
def upToLastSeparator (p : Path) : Path :=
  (p.reverse.dropWhile (fun c => !is_separator c)).reverse

/-- A path name with its trailing separators removed. -/
def stripTrailingSeparators (p : Path) : Path :=
  (p.reverse.dropWhile is_separator).reverse

/-- The member `path::filename()`: the final element of the path; `.` for a path that
ends in a separator, `/` for the root directory, empty for the empty path. -/
def filename (p : Path) : Path :=
  if p = [] then []
  else if lastElement p ≠ [] then lastElement p
  else if stripTrailingSeparators p = [] then ['/']
  else ['.']

/-- The member `path::operator/=`: appends `q`, putting a separator in between unless
`q` is empty, `q` begins with a separator, or the path is empty or ends in one. -/
def pathAppend (p q : Path) : Path :=
  match q with
  | [] => p
  | c :: _ =>
    if is_separator c then p ++ q
    else
      match p.getLast? with
      | none => p ++ q
      | some l => if is_separator l then p ++ q else p ++ '/' :: q

/-! ## `makeOutputFilePath` -/

/-- The character set `".tif"` handed to `find_last_of`. -/
def tifChars : CString := ['.', 't', 'i', 'f']

/-- The function `makeOutputFilePath(inputFileName, subdir, insert)` of `boostfs.cpp`,
reading the global `dataDir`. -/
def makeOutputFilePath (dataDir : Path) (inputFileName subdir insert : CString) :
    Except CppError CString :=
  let inputpath : Path := inputFileName
  let outputpath : Path := pathAppend dataDir subdir
  let basename : CString := filename inputpath
  let pos : Int := toInt32 (find_last_of basename tifChars)
  match string_insert basename (toSizeT (pos - 3)) insert with
  | .error e => .error e
  | .ok basename1 => .ok (pathAppend outputpath basename1)

/-! ## The global `dataDir`, the working directory and the file system -/

/-- What a path names on disk. -/
inductive FileType where
  | regular
  | directory
  deriving DecidableEq, Repr

/-- An explicit file-system state: the path names that exist, each with its type.
The first entry for a path name is the one that counts. -/
abbrev FileSystem := List (Path × FileType)

/-- The state the functions of `boostfs.cpp` read and write: the process working
directory, the file-static `dataDir`, and the file system. -/
structure World where
  cwd : Path
  dataDir : Path
  fs : FileSystem
  deriving DecidableEq, Repr

/-- The test `path::is_absolute()` on POSIX: the path name has a root directory. -/
def is_absolute (p : Path) : Bool :=
  match p with
  | c :: _ => is_separator c
  | [] => false

/-- The test `path::has_root_name()` on POSIX: the path name is `//` or begins with two
separators followed by something else (a network name). -/
def has_root_name (p : Path) : Bool :=
  match p with
  | [c1, c2] => is_separator c1 && is_separator c2
  | c1 :: c2 :: c3 :: _ => is_separator c1 && is_separator c2 && !is_separator c3
  | _ => false

/-- The function `boost::filesystem::absolute(p)` with the working directory as base. -/
def absolute (cwd p : Path) : Path :=
  if p = [] then cwd
  else if is_absolute p then p
  else pathAppend cwd p

/-- The member `path::remove_filename()`, which changes the path to its `parent_path()`:
the final element goes, then the separators in front of it, except the root directory.
Nothing is left of a path that has separators only. -/
def remove_filename (p : Path) : Path :=
  if stripTrailingSeparators p = [] then []
  else
    let front := if lastElement p = [] then p.dropLast else upToLastSeparator p
    let stripped := stripTrailingSeparators front
    if stripped = [] ∧ front ≠ [] then ['/'] else stripped

/-- The function `getDataDir(filename)` of `boostfs.cpp`: `dataDir` is assigned the
absolute form of `filename`, and `dataDir.remove_filename()` in the output statement
then changes `dataDir` itself. -/
def getDataDir (filename : CString) (w : World) : World :=
  let dataDir1 := absolute w.cwd filename
  { w with dataDir := remove_filename dataDir1 }

/-- The status query behind `boost::filesystem::exists` and `is_directory`. -/
def status (fs : FileSystem) (p : Path) : Option FileType :=
  fs.lookup p

/-- The function `boost::filesystem::exists(p)`. -/
def fs_exists (fs : FileSystem) (p : Path) : Bool :=
  (status fs p).isSome

/-- The function `boost::filesystem::create_directory(p)`: makes the directory and
returns `true` when nothing has the name `p` and its parent is a directory (an empty
parent is the working directory); returns `false`, changing nothing, when `p` already
is a directory; throws `filesystem_error` otherwise. -/
def create_directory (fs : FileSystem) (p : Path) : Except CppError (Bool × FileSystem) :=
  match status fs p with
  | some .directory => .ok (false, fs)
  | some .regular => .error .filesystem_error
  | none =>
    if remove_filename p = [] ∨ status fs (remove_filename p) = some .directory then
      .ok (true, (p, .directory) :: fs)
    else .error .filesystem_error

/-- The function `makeResultsDir(subdirname)` of `boostfs.cpp`. -/
def makeResultsDir (subdirname : CString) (w : World) : Except CppError World :=
  let outputDir : Path := pathAppend w.dataDir subdirname
  if ! fs_exists w.fs outputDir then
    match create_directory w.fs outputDir with
    | .error e => .error e
    | .ok (_, fs1) => .ok { w with fs := fs1 }
  else .ok w

/-! ## `RichardsonLucy` (`decon.h`)

The image type `kImageType` is declared in `defines.h`, outside the two files embedded
here; it is a type parameter.  The filter is ITK's
`RichardsonLucyDeconvolutionImageFilter`, represented by the settings its setters
write. -/

/-- The output region modes of an ITK convolution filter. -/
inductive OutputRegionMode where
  | same
  | valid
  deriving DecidableEq, Repr

/-- The boundary conditions an ITK convolution filter can be given. -/
inductive BoundaryCondition where
  | zeroFluxNeumann
  | constant
  | periodic
  deriving DecidableEq, Repr

/-- The settings of a `DeconFilterType` object. -/
structure DeconFilter (kImageType : Type) where
  input : Option kImageType
  kernelImage : Option kImageType
  normalize : Bool
  numberOfIterations : Nat
  outputRegionMode : OutputRegionMode
  boundaryCondition : BoundaryCondition
  deriving DecidableEq, Repr

/-- The outcomes the specification names for a failed deconvolution call. -/
inductive DeconError where
  | InvalidInput
  | NumericInstability
  | Cancelled
  deriving DecidableEq, Repr

namespace DeconFilter

variable {kImageType : Type}

/-- A fresh filter as `DeconFilterType::New()` makes it: no input, no kernel,
normalization off, one iteration, output region mode `same`, zero-flux Neumann
boundary. -/
def New : DeconFilter kImageType :=
  { input := none, kernelImage := none, normalize := false, numberOfIterations := 1,
    outputRegionMode := .same, boundaryCondition := .zeroFluxNeumann }

/-- The setter `SetInput`. -/
def SetInput (f : DeconFilter kImageType) (img : kImageType) : DeconFilter kImageType :=
  { f with input := some img }

/-- The setter `SetKernelImage`. -/
def SetKernelImage (f : DeconFilter kImageType) (kernel : kImageType) :
    DeconFilter kImageType :=
  { f with kernelImage := some kernel }

/-- The setter `NormalizeOn`. -/
def NormalizeOn (f : DeconFilter kImageType) : DeconFilter kImageType :=
  { f with normalize := true }

/-- The setter `SetNumberOfIterations`. -/
def SetNumberOfIterations (f : DeconFilter kImageType) (iterations : Nat) :
    DeconFilter kImageType :=
  { f with numberOfIterations := iterations }

/-- The setter `SetOutputRegionModeToSame`. -/
def SetOutputRegionModeToSame (f : DeconFilter kImageType) : DeconFilter kImageType :=
  { f with outputRegionMode := .same }

/-- The setter `SetBoundaryCondition`. -/
def SetBoundaryCondition (f : DeconFilter kImageType) (bc : BoundaryCondition) :
    DeconFilter kImageType :=
  { f with boundaryCondition := bc }

end DeconFilter

/-- The image handle `filter->GetOutput()` gives: the output of the pipeline whose
source is the configured filter. -/
structure FilterOutput (kImageType : Type) where
  source : DeconFilter kImageType
  deriving DecidableEq, Repr

/-- The function `RichardsonLucy(img, kernel, iterations, verbose)` of `decon.h`
(`iterations` is an `unsigned int`).  No statement of the body can fail, so the result
is always `ok`.  The body never calls `Update()`: what it returns is the output handle
of the configured filter, not a computed image. -/
def RichardsonLucy {kImageType : Type} (img kernel : kImageType) (iterations : Nat)
    (verbose : Bool) : Except DeconError (FilterOutput kImageType) :=
  let _ := verbose
  let bc : BoundaryCondition := .zeroFluxNeumann
  let filter : DeconFilter kImageType := DeconFilter.New
  let filter := filter.SetInput img
  let filter := filter.SetKernelImage kernel
  let filter := filter.NormalizeOn
  let filter := filter.SetNumberOfIterations iterations
  let filter := filter.SetOutputRegionModeToSame
  let filter := filter.SetBoundaryCondition bc
  .ok { source := filter }

/-! ## Notions the claims are stated with -/

/-- Position `p` is the largest index at which `b` holds a character of `chars`. -/
def IsLastIndexIn (chars b : CString) (p : Nat) : Prop :=
  p < b.length ∧ (∃ c ∈ chars, b[p]? = some c) ∧
    ∀ j, j < b.length → p < j → ∀ c ∈ chars, b[j]? ≠ some c

instance (chars b : CString) (p : Nat) : Decidable (IsLastIndexIn chars b p) := by
  unfold IsLastIndexIn; infer_instance

/-- The suffix of a file name that starts at its last `.` (empty when there is none). -/
def specExtension (b : CString) : CString :=
  match lastIndexIn ['.'] b with
  | some i => b.drop i
  | none => []

/-- The part of a file name in front of its last `.` (all of it when there is none). -/
def specStem (b : CString) : CString :=
  match lastIndexIn ['.'] b with
  | some i => b.take i
  | none => b

/-! ## Facts about the string and path operations -/

theorem lastIndexIn_none_iff (chars : List Char) (s : CString) :
    lastIndexIn chars s = none ↔ ∀ c ∈ s, c ∉ chars := by
  induction s with
  | nil => simp [lastIndexIn]
  | cons a s ih =>
    simp only [lastIndexIn]
    cases h : lastIndexIn chars s with
    | none =>
      have h1 := ih.mp h
      by_cases ha : a ∈ chars
      · simp [ha]
      · simp only [ha, if_false, List.mem_cons, true_iff]
        intro c hc
        rcases hc with rfl | hc
        · exact ha
        · exact h1 c hc
    | some i =>
      constructor
      · intro h2
        exact Option.noConfusion h2
      · intro hall
        have h2 : lastIndexIn chars s = none :=
          ih.mpr (fun c hc => hall c (List.mem_cons_of_mem _ hc))
        rw [h] at h2
        exact Option.noConfusion h2

theorem lastIndexIn_append (chars : List Char) (s t : CString) :
    lastIndexIn chars (s ++ t) =
      match lastIndexIn chars t with
      | some i => some (s.length + i)
      | none => lastIndexIn chars s := by
  induction s with
  | nil => cases h : lastIndexIn chars t <;> simp [h, lastIndexIn]
  | cons a s ih =>
    have e : lastIndexIn chars (a :: s ++ t) =
        match lastIndexIn chars (s ++ t) with
        | some i => some (i + 1)
        | none => if a ∈ chars then some 0 else none := rfl
    rw [e, ih]
    cases h : lastIndexIn chars t with
    | none => rfl
    | some i =>
      show some (s.length + i + 1) = some (s.length + 1 + i)
      congr 1
      omega

theorem lastIndexIn_split (chars : List Char) (pre suf : CString) (c : Char)
    (hc : c ∈ chars) (hsuf : ∀ x ∈ suf, x ∉ chars) :
    lastIndexIn chars (pre ++ c :: suf) = some pre.length := by
  rw [lastIndexIn_append]
  have h1 : lastIndexIn chars (c :: suf) = some 0 := by
    simp only [lastIndexIn, (lastIndexIn_none_iff chars suf).mpr hsuf, hc, if_true]
  rw [h1]; rfl

theorem lastIndexIn_some_split (chars : List Char) (s : CString) (p : Nat)
    (h : lastIndexIn chars s = some p) :
    p < s.length ∧ ∃ c, c ∈ chars ∧ s = s.take p ++ c :: s.drop (p + 1) ∧
      ∀ x ∈ s.drop (p + 1), x ∉ chars := by
  induction s generalizing p with
  | nil => simp [lastIndexIn] at h
  | cons a s ih =>
    simp only [lastIndexIn] at h
    cases h1 : lastIndexIn chars s with
    | none =>
      rw [h1] at h
      by_cases ha : a ∈ chars
      · simp only [ha, if_true, Option.some.injEq] at h
        subst h
        refine ⟨by simp, a, ha, by simp, ?_⟩
        simpa using (lastIndexIn_none_iff chars s).mp h1
      · simp [ha] at h
    | some i =>
      rw [h1] at h
      simp only [Option.some.injEq] at h
      subst h
      obtain ⟨hlt, c, hc, hs, hall⟩ := ih i h1
      refine ⟨by simp; omega, c, hc, ?_, ?_⟩
      · simp only [List.take_succ_cons, List.drop_succ_cons, List.cons_append]
        rw [← hs]
      · simpa using hall

theorem isLastIndexIn_iff (chars b : CString) (p : Nat) :
    IsLastIndexIn chars b p ↔ lastIndexIn chars b = some p := by
  constructor
  · rintro ⟨hlt, ⟨c, hc, hget⟩, hlast⟩
    have hsplit : b = b.take p ++ c :: b.drop (p + 1) := by
      have h1 : b.drop p = c :: b.drop (p + 1) := by
        rw [List.drop_eq_getElem_cons hlt]
        congr 1
        rw [List.getElem?_eq_getElem hlt] at hget
        exact Option.some.inj hget
      conv_lhs => rw [← List.take_append_drop p b, h1]
    have hsuf : ∀ x ∈ b.drop (p + 1), x ∉ chars := by
      intro x hx hxc
      obtain ⟨k, hk, rfl⟩ := List.getElem_of_mem hx
      rw [List.length_drop] at hk
      have hj : p + 1 + k < b.length := by omega
      apply hlast (p + 1 + k) hj (by omega) _ hxc
      rw [List.getElem_drop, List.getElem?_eq_getElem hj]
    have := lastIndexIn_split chars (b.take p) (b.drop (p + 1)) c hc hsuf
    rw [← hsplit, List.length_take, min_eq_left (le_of_lt hlt)] at this
    exact this
  · intro h
    obtain ⟨hlt, c, hc, hs, hall⟩ := lastIndexIn_some_split chars b p h
    have hlen : (b.take p).length = p := by
      rw [List.length_take, min_eq_left (le_of_lt hlt)]
    refine ⟨hlt, ⟨c, hc, ?_⟩, ?_⟩
    · rw [hs, List.getElem?_append_right (by omega), hlen]; simp
    · intro j hj hpj x hx hget
      apply hall x _ hx
      rw [List.getElem?_eq_getElem hj] at hget
      have hx2 : b[j] = x := Option.some.inj hget
      have : (b.drop (p + 1))[j - (p + 1)]? = some x := by
        rw [List.getElem?_drop]
        have : p + 1 + (j - (p + 1)) = j := by omega
        rw [this, List.getElem?_eq_getElem hj, hx2]
      exact List.getElem?_mem this

theorem toInt32_of_lt (n : Nat) (h : n < 2 ^ 31) : toInt32 n = (n : Int) := by
  unfold toInt32
  have h1 : n % 2 ^ 32 = n := Nat.mod_eq_of_lt (by omega)
  rw [h1, if_pos h]

theorem toInt32_npos : toInt32 npos = -1 := by decide

theorem toSizeT_of_nonneg (p : Nat) (h3 : 3 ≤ p) (h : p < 2 ^ 31) :
    toSizeT ((p : Int) - 3) = p - 3 := by
  unfold toSizeT
  omega

theorem toSizeT_of_neg (i : Int) (hneg : i < 0) (hlow : -4 ≤ i) :
    2 ^ 64 - 4 ≤ toSizeT i := by
  unfold toSizeT
  omega

/-- Evaluation of `makeOutputFilePath` when the search finds an index of at least 3. -/
theorem makeOutputFilePath_ok (dataDir : Path) (inputFileName subdir insert : CString)
    (p : Nat) (hlen : (filename inputFileName).length < 2 ^ 31)
    (hp : lastIndexIn tifChars (filename inputFileName) = some p) (h3 : 3 ≤ p) :
    makeOutputFilePath dataDir inputFileName subdir insert =
      .ok (pathAppend (pathAppend dataDir subdir)
        ((filename inputFileName).take (p - 3) ++ insert ++
          (filename inputFileName).drop (p - 3))) := by
  have hlt := (lastIndexIn_some_split _ _ _ hp).1
  unfold makeOutputFilePath find_last_of string_insert
  simp only [hp, Option.getD_some]
  rw [toInt32_of_lt p (by omega), toSizeT_of_nonneg p h3 (by omega)]
  rw [if_neg (by omega)]

/-- Evaluation of `makeOutputFilePath` when the search finds nothing, or an index below 3. -/
theorem makeOutputFilePath_error (dataDir : Path) (inputFileName subdir insert : CString)
    (hlen : (filename inputFileName).length < 2 ^ 31)
    (hp : lastIndexIn tifChars (filename inputFileName) = none ∨
      ∃ p, lastIndexIn tifChars (filename inputFileName) = some p ∧ p < 3) :
    makeOutputFilePath dataDir inputFileName subdir insert = .error .out_of_range := by
  unfold makeOutputFilePath find_last_of string_insert
  rcases hp with hp | ⟨p, hp, h3⟩
  · simp only [hp, Option.getD_none, toInt32_npos]
    have := toSizeT_of_neg (-1 - 3) (by omega) (by omega)
    rw [if_pos (by omega)]
  · simp only [hp, Option.getD_some]
    rw [toInt32_of_lt p (by omega)]
    have := toSizeT_of_neg ((p : Int) - 3) (by omega) (by omega)
    rw [if_pos (by omega)]

theorem lastElement_append (out x : Path) (hx : ∀ c ∈ x, is_separator c = false)
    (hout : out = [] ∨ out.getLast? = some '/') : lastElement (out ++ x) = x := by
  unfold lastElement
  rw [List.reverse_append]
  have h1 : ∀ a ∈ x.reverse, (fun c => !is_separator c) a = true := by
    intro a ha
    simp [hx a (List.mem_reverse.mp ha)]
  rw [List.takeWhile_append_of_pos h1]
  have h2 : out.reverse.takeWhile (fun c => !is_separator c) = [] := by
    rcases hout with rfl | h
    · rfl
    · obtain ⟨ys, rfl⟩ : ∃ ys, out = ys ++ ['/'] := by
        rcases List.getLast?_eq_some_iff.mp h with ⟨ys, hys⟩
        exact ⟨ys, hys⟩
      simp [is_separator]
  rw [h2]; simp

/-- Appending a non-empty element without separators makes it the final element. -/
theorem filename_pathAppend (out x : Path) (hne : x ≠ [])
    (hx : ∀ c ∈ x, is_separator c = false) : filename (pathAppend out x) = x := by
  have key : ∀ q : Path, (q = [] ∨ q.getLast? = some '/') → filename (q ++ x) = x := by
    intro q hq
    have hl := lastElement_append q x hx hq
    unfold filename
    rw [hl]
    have : q ++ x ≠ [] := by simp [hne]
    rw [if_neg this, if_pos hne]
  cases x with
  | nil => exact absurd rfl hne
  | cons c cs =>
    have hc : is_separator c = false := hx c (List.mem_cons_self _ _)
    unfold pathAppend
    simp only [hc]
    cases hlast : out.getLast? with
    | none =>
      have : out = [] := List.getLast?_eq_none_iff.mp hlast
      subst this
      exact key [] (Or.inl rfl)
    | some l =>
      by_cases hl : is_separator l = true
      · simp only [hl, if_true]
        apply key out
        right
        have : l = '/' := by simpa [is_separator] using hl
        rw [hlast, this]
      · simp only [hl]
        have := key (out ++ ['/']) (Or.inr (by simp))
        simpa using this

theorem lastElement_no_separator (p : Path) : ∀ c ∈ lastElement p, is_separator c = false := by
  intro c hc
  unfold lastElement at hc
  have h := List.mem_takeWhile_imp (List.mem_reverse.mp hc)
  simpa using h

theorem filename_no_separator (p : Path) (h : 2 ≤ (filename p).length) :
    ∀ c ∈ filename p, is_separator c = false := by
  unfold filename at h ⊢
  by_cases h1 : p = []
  · simp [h1] at h
  · rw [if_neg h1] at h ⊢
    by_cases h2 : lastElement p ≠ []
    · rw [if_pos h2]
      exact lastElement_no_separator p
    · rw [if_neg h2] at h
      by_cases h3 : stripTrailingSeparators p = [] <;> simp [h3] at h

/-! ## Claims about `makeOutputFilePath` -/

/-- C2: when the final component of `inputFileName` is `s ++ ".tif"` (any stem `s`, the
empty one included, within the range of `int`), `makeOutputFilePath` returns without
error the path `dataDir / subdir / (s ++ insert ++ ".tif")`; deleting the tag from the
new name gives back `s ++ ".tif"`. -/
theorem makeOutputFilePath_tif (dataDir : Path) (inputFileName subdir insert s : CString)
    (hb : filename inputFileName = s ++ ['.', 't', 'i', 'f'])
    (hlen : s.length + 4 < 2 ^ 31) :
    makeOutputFilePath dataDir inputFileName subdir insert =
        .ok (pathAppend (pathAppend dataDir subdir) (s ++ insert ++ ['.', 't', 'i', 'f'])) ∧
      (s ++ insert ++ ['.', 't', 'i', 'f']).take s.length ++
        (s ++ insert ++ ['.', 't', 'i', 'f']).drop (s.length + insert.length) =
          s ++ ['.', 't', 'i', 'f'] := by
  constructor
  · have hp : lastIndexIn tifChars (filename inputFileName) = some (s.length + 3) := by
      rw [hb]
      have := lastIndexIn_split tifChars (s ++ ['.', 't', 'i']) [] 'f' (by decide) (by simp)
      simpa using this
    have h := makeOutputFilePath_ok dataDir inputFileName subdir insert (s.length + 3)
      (by rw [hb]; simp; omega) hp (by omega)
    rw [h, hb]
    simp
  · simp

theorem makeOutputFilePath_tif_witness :
    (filename "/data/raw/stack_0001.tif".toList = "stack_0001".toList ++ ['.', 't', 'i', 'f'] ∧
        "stack_0001".toList.length + 4 < 2 ^ 31) ∧
      makeOutputFilePath "/data".toList "/data/raw/stack_0001.tif".toList "CPPdecon".toList
        "_decon".toList = .ok "/data/CPPdecon/stack_0001_decon.tif".toList :=
  ⟨⟨by rfl, by decide⟩,
    (makeOutputFilePath_tif "/data".toList "/data/raw/stack_0001.tif".toList
      "CPPdecon".toList "_decon".toList "stack_0001".toList (by rfl) (by decide)).1⟩

/-- C9: with `b` the final component of `inputFileName` (within the range of `int`),
`makeOutputFilePath` fails with `out_of_range` exactly when `b` holds none of the
characters `.`, `t`, `i`, `f`, or the largest index holding one of them is below 3;
on every other input it returns a path. -/
theorem makeOutputFilePath_fails_iff (dataDir : Path)
    (inputFileName subdir insert b : CString)
    (hb : filename inputFileName = b) (hlen : b.length < 2 ^ 31) :
    (makeOutputFilePath dataDir inputFileName subdir insert = .error .out_of_range ↔
        ((∀ c ∈ b, c ∉ tifChars) ∨ ∃ p, IsLastIndexIn tifChars b p ∧ p < 3)) ∧
      (¬ ((∀ c ∈ b, c ∉ tifChars) ∨ ∃ p, IsLastIndexIn tifChars b p ∧ p < 3) →
        ∃ out, makeOutputFilePath dataDir inputFileName subdir insert = .ok out) := by
  subst hb
  have hfail : ((∀ c ∈ filename inputFileName, c ∉ tifChars) ∨
      ∃ p, IsLastIndexIn tifChars (filename inputFileName) p ∧ p < 3) →
      makeOutputFilePath dataDir inputFileName subdir insert = .error .out_of_range := by
    intro h
    apply makeOutputFilePath_error dataDir inputFileName subdir insert hlen
    rcases h with h | ⟨p, hp, h3⟩
    · exact Or.inl ((lastIndexIn_none_iff _ _).mpr h)
    · exact Or.inr ⟨p, (isLastIndexIn_iff _ _ _).mp hp, h3⟩
  have hok : ¬ ((∀ c ∈ filename inputFileName, c ∉ tifChars) ∨
      ∃ p, IsLastIndexIn tifChars (filename inputFileName) p ∧ p < 3) →
      ∃ out, makeOutputFilePath dataDir inputFileName subdir insert = .ok out := by
    intro h
    cases hq : lastIndexIn tifChars (filename inputFileName) with
    | none => exact absurd (Or.inl ((lastIndexIn_none_iff _ _).mp hq)) h
    | some p =>
      by_cases h3 : p < 3
      · exact absurd (Or.inr ⟨p, (isLastIndexIn_iff _ _ _).mpr hq, h3⟩) h
      · exact ⟨_, makeOutputFilePath_ok dataDir inputFileName subdir insert p hlen hq
          (by omega)⟩
  refine ⟨⟨?_, hfail⟩, hok⟩
  intro herr
  by_contra hcon
  obtain ⟨out, hout⟩ := hok hcon
  rw [hout] at herr
  exact Except.noConfusion herr

theorem makeOutputFilePath_fails_iff_witness :
    (filename "/data/raw/x.png".toList = "x.png".toList ∧ "x.png".toList.length < 2 ^ 31) ∧
      makeOutputFilePath "/data".toList "/data/raw/x.png".toList "CPPdecon".toList
        "_decon".toList = .error .out_of_range :=
  ⟨⟨by rfl, by decide⟩,
    (makeOutputFilePath_fails_iff "/data".toList "/data/raw/x.png".toList "CPPdecon".toList
      "_decon".toList "x.png".toList (by rfl) (by decide)).1.mpr
      (Or.inr ⟨1, by decide, by decide⟩)⟩

/-- C10: with `b` the final component of `inputFileName` (within the range of `int`)
and `p` the largest index at which `b` holds one of the characters `.`, `t`, `i`, `f`,
whenever `p >= 3` the name `makeOutputFilePath` appends to `dataDir / subdir` is
`b[0..p-3) ++ insert ++ b[p-3..)`: its length is `|b| + |insert|`, deleting the inserted
block gives back `b`, and it is the final component of the result when `insert` holds no
separator.  Nothing here looks at where `.tif` occurs in `b`. -/
theorem makeOutputFilePath_inserts_three_before_last_hit (dataDir : Path)
    (inputFileName subdir insert b : CString) (p : Nat)
    (hb : filename inputFileName = b) (hlen : b.length < 2 ^ 31)
    (hp : IsLastIndexIn tifChars b p) (h3 : 3 ≤ p) :
    makeOutputFilePath dataDir inputFileName subdir insert =
        .ok (pathAppend (pathAppend dataDir subdir)
          (b.take (p - 3) ++ insert ++ b.drop (p - 3))) ∧
      (b.take (p - 3) ++ insert ++ b.drop (p - 3)).length = b.length + insert.length ∧
      (b.take (p - 3) ++ insert ++ b.drop (p - 3)).take (p - 3) ++
        (b.take (p - 3) ++ insert ++ b.drop (p - 3)).drop (p - 3 + insert.length) = b ∧
      ((∀ c ∈ insert, is_separator c = false) →
        filename (pathAppend (pathAppend dataDir subdir)
          (b.take (p - 3) ++ insert ++ b.drop (p - 3))) =
            b.take (p - 3) ++ insert ++ b.drop (p - 3)) := by
  subst hb
  have hq := (isLastIndexIn_iff _ _ _).mp hp
  have hlt : p < (filename inputFileName).length := hp.1
  have htake : ((filename inputFileName).take (p - 3)).length = p - 3 := by
    rw [List.length_take]; omega
  refine ⟨makeOutputFilePath_ok dataDir inputFileName subdir insert p hlen hq h3, ?_, ?_, ?_⟩
  · simp only [List.length_append, List.length_take, List.length_drop]
    omega
  · rw [List.append_assoc, List.take_left' htake, List.drop_append_eq_append_drop]
    have h0 : p - 3 + insert.length - ((filename inputFileName).take (p - 3)).length
        = insert.length := by omega
    rw [List.drop_of_length_le (by omega), h0, List.drop_left, List.nil_append,
      List.take_append_drop]
  · intro hins
    apply filename_pathAppend
    · intro hnil
      have := congrArg List.length hnil
      simp only [List.length_append, List.length_take, List.length_drop,
        List.length_nil] at this
      omega
    · have hb2 := filename_no_separator inputFileName (by omega)
      intro c hc
      simp only [List.mem_append] at hc
      rcases hc with (hc | hc) | hc
      · exact hb2 c (List.mem_of_mem_take hc)
      · exact hins c hc
      · exact hb2 c (List.mem_of_mem_drop hc)

theorem makeOutputFilePath_inserts_three_before_last_hit_witness :
    (filename "/data/raw/stack.tiff".toList = "stack.tiff".toList ∧
        "stack.tiff".toList.length < 2 ^ 31 ∧
        IsLastIndexIn tifChars "stack.tiff".toList 9 ∧ 3 ≤ 9) ∧
      makeOutputFilePath "/data".toList "/data/raw/stack.tiff".toList "CPPdecon".toList
        "_decon".toList = .ok "/data/CPPdecon/stack._decontiff".toList :=
  ⟨⟨by rfl, by decide, by decide, by decide⟩,
    (makeOutputFilePath_inserts_three_before_last_hit "/data".toList
      "/data/raw/stack.tiff".toList "CPPdecon".toList "_decon".toList "stack.tiff".toList 9
      (by rfl) (by decide) (by decide) (by decide)).1⟩

/-- C1, as stated, fails: for `scan.tiff` the tag lands behind the `.`, not in front of
the extension `.tiff`; for `x.png`, which has an extension too, no path is returned. -/
theorem makeOutputFilePath_extension_counterexample :
    ('.' ∈ filename "/data/raw/scan.tiff".toList ∧
        specStem (filename "/data/raw/scan.tiff".toList) = "scan".toList ∧
        specExtension (filename "/data/raw/scan.tiff".toList) = ".tiff".toList ∧
        makeOutputFilePath "/data".toList "/data/raw/scan.tiff".toList "CPPdecon".toList
          "_decon".toList = .ok "/data/CPPdecon/scan._decontiff".toList ∧
        makeOutputFilePath "/data".toList "/data/raw/scan.tiff".toList "CPPdecon".toList
          "_decon".toList ≠
            .ok (pathAppend (pathAppend "/data".toList "CPPdecon".toList)
              ("scan".toList ++ "_decon".toList ++ ".tiff".toList))) ∧
      ('.' ∈ filename "/data/raw/x.png".toList ∧
        makeOutputFilePath "/data".toList "/data/raw/x.png".toList "CPPdecon".toList
          "_decon".toList = .error .out_of_range) := by
  refine ⟨⟨by decide, by rfl, by rfl, by rfl, ?_⟩, by decide, by rfl⟩
  intro h
  have h2 : makeOutputFilePath "/data".toList "/data/raw/scan.tiff".toList "CPPdecon".toList
      "_decon".toList = .ok "/data/CPPdecon/scan._decontiff".toList := by rfl
  rw [h2] at h
  have h3 := Except.ok.inj h
  revert h3
  decide

/-- C1, amended: when the final component `b` of `inputFileName` (within the range of
`int`) has an extension and the last of the characters `.`, `t`, `i`, `f` in `b` sits
exactly three places behind the last `.` (as in every name that ends in `.tif`),
`makeOutputFilePath` returns `dataDir / subdir / (stem ++ insert ++ extension)`, the
extension being the suffix of `b` that starts at its last `.`. -/
theorem makeOutputFilePath_before_extension (dataDir : Path)
    (inputFileName subdir insert b : CString) (i : Nat)
    (hb : filename inputFileName = b) (hlen : b.length < 2 ^ 31)
    (hdot : IsLastIndexIn ['.'] b i) (hhit : IsLastIndexIn tifChars b (i + 3)) :
    makeOutputFilePath dataDir inputFileName subdir insert =
      .ok (pathAppend (pathAppend dataDir subdir)
        (specStem b ++ insert ++ specExtension b)) := by
  subst hb
  have hd := (isLastIndexIn_iff _ _ _).mp hdot
  have hq := (isLastIndexIn_iff _ _ _).mp hhit
  have h := makeOutputFilePath_ok dataDir inputFileName subdir insert (i + 3) hlen hq
    (by omega)
  rw [h]
  simp only [specStem, specExtension, hd, Nat.add_sub_cancel]

theorem makeOutputFilePath_before_extension_witness :
    (filename "/data/raw/notes.txt".toList = "notes.txt".toList ∧
        "notes.txt".toList.length < 2 ^ 31 ∧
        IsLastIndexIn ['.'] "notes.txt".toList 5 ∧
        IsLastIndexIn tifChars "notes.txt".toList (5 + 3)) ∧
      makeOutputFilePath "/data".toList "/data/raw/notes.txt".toList "CPPdecon".toList
        "_decon".toList =
          .ok (pathAppend (pathAppend "/data".toList "CPPdecon".toList)
            (specStem "notes.txt".toList ++ "_decon".toList ++
              specExtension "notes.txt".toList)) :=
  ⟨⟨by rfl, by decide, by decide, by decide⟩,
    makeOutputFilePath_before_extension "/data".toList "/data/raw/notes.txt".toList
      "CPPdecon".toList "_decon".toList "notes.txt".toList 5 (by rfl) (by decide)
      (by decide) (by decide)⟩

/-! ## Claims about `RichardsonLucy` -/

/-- C3, as stated, fails: with `iterations = 0` the call returns the filter output,
configured for zero iterations, and raises nothing. -/
theorem RichardsonLucy_zero_iterations_counterexample :
    RichardsonLucy [10, 10, 10, 10] [0, 1, 0] 0 false ≠ .error .InvalidInput ∧
      RichardsonLucy [10, 10, 10, 10] [0, 1, 0] 0 false =
        .ok { source :=
          { input := some [10, 10, 10, 10], kernelImage := some [0, 1, 0], normalize := true,
            numberOfIterations := 0, outputRegionMode := .same,
            boundaryCondition := .zeroFluxNeumann } } := by
  constructor
  · intro h
    exact Except.noConfusion h
  · rfl

/-- C3, amended: for every image and kernel, `RichardsonLucy` with `iterations = 0` does
not fail; it returns the output of a filter whose number of iterations is set to 0. -/
theorem RichardsonLucy_zero_iterations_returns {kImageType : Type} (img kernel : kImageType)
    (verbose : Bool) :
    ∃ out, RichardsonLucy img kernel 0 verbose = .ok out ∧
      out.source.numberOfIterations = 0 ∧ out.source.input = some img :=
  ⟨_, rfl, rfl, rfl⟩

/-- C4: for every image, kernel, iteration count and `verbose`, `RichardsonLucy` returns
the output of a filter with input `img`, kernel image `kernel`, normalization on, number
of iterations equal to the argument, and the zero-flux Neumann boundary condition; the
result is the same for both values of `verbose`. -/
theorem RichardsonLucy_settings {kImageType : Type} (img kernel : kImageType)
    (iterations : Nat) (verbose : Bool) :
    (∃ out, RichardsonLucy img kernel iterations verbose = .ok out ∧
        out.source.input = some img ∧ out.source.kernelImage = some kernel ∧
        out.source.normalize = true ∧ out.source.numberOfIterations = iterations ∧
        out.source.boundaryCondition = .zeroFluxNeumann) ∧
      RichardsonLucy img kernel iterations verbose =
        RichardsonLucy img kernel iterations (!verbose) :=
  ⟨⟨_, rfl, rfl, rfl, rfl, rfl, rfl⟩, rfl⟩

/-! ## Claims about `makeResultsDir` -/

theorem status_cons_self (fs : FileSystem) (p : Path) (t : FileType) :
    status ((p, t) :: fs) p = some t := by
  simp [status, List.lookup]

theorem status_cons_of_ne (fs : FileSystem) (p q : Path) (t : FileType) (h : q ≠ p) :
    status ((p, t) :: fs) q = status fs q := by
  have hne : (q == p) = false := by simpa using h
  simp [status, List.lookup, hne]

/-- What a successful `makeResultsDir` leaves behind: the same world when the output
directory's name existed, and otherwise the world with that directory added. -/
theorem makeResultsDir_ok_cases (subdirname : CString) (w w1 : World)
    (h : makeResultsDir subdirname w = .ok w1) :
    (fs_exists w.fs (pathAppend w.dataDir subdirname) = true ∧ w1 = w) ∨
      (fs_exists w.fs (pathAppend w.dataDir subdirname) = false ∧
        w1 = { w with fs := (pathAppend w.dataDir subdirname, .directory) :: w.fs }) := by
  unfold makeResultsDir at h
  cases hex : fs_exists w.fs (pathAppend w.dataDir subdirname) with
  | true =>
    left
    simp only [hex, Bool.not_true] at h
    exact ⟨rfl, (Except.ok.inj h).symm⟩
  | false =>
    right
    have hst : status w.fs (pathAppend w.dataDir subdirname) = none := by
      unfold fs_exists at hex
      cases hs : status w.fs (pathAppend w.dataDir subdirname) with
      | none => rfl
      | some t => rw [hs] at hex; exact absurd hex (by simp)
    simp only [hex, Bool.not_false, if_true, create_directory, hst] at h
    refine ⟨rfl, ?_⟩
    by_cases hpar : remove_filename (pathAppend w.dataDir subdirname) = [] ∨
        status w.fs (remove_filename (pathAppend w.dataDir subdirname)) = some .directory
    · rw [if_pos hpar] at h
      exact (Except.ok.inj h).symm
    · rw [if_neg hpar] at h
      exact Except.noConfusion h

/-- C7: when `makeResultsDir subdirname` succeeds, `dataDir / subdirname` exists
afterwards and every other path name has the status it had (`cwd` and `dataDir` are left
alone too); when `dataDir / subdirname` existed already the whole state is unchanged,
when it did not it now is a directory; and a second call returns the state of the first
unchanged, so calling twice gives the state of calling once. -/
theorem makeResultsDir_creates_only_output_dir (subdirname : CString) (w w1 : World)
    (h : makeResultsDir subdirname w = .ok w1) :
    fs_exists w1.fs (pathAppend w.dataDir subdirname) = true ∧
      (∀ p, p ≠ pathAppend w.dataDir subdirname → status w1.fs p = status w.fs p) ∧
      (w1.cwd = w.cwd ∧ w1.dataDir = w.dataDir) ∧
      (fs_exists w.fs (pathAppend w.dataDir subdirname) = true → w1 = w) ∧
      (fs_exists w.fs (pathAppend w.dataDir subdirname) = false →
        status w1.fs (pathAppend w.dataDir subdirname) = some .directory) ∧
      makeResultsDir subdirname w1 = .ok w1 := by
  have hex1 : fs_exists w1.fs (pathAppend w.dataDir subdirname) = true ∧
      w1.dataDir = w.dataDir := by
    rcases makeResultsDir_ok_cases subdirname w w1 h with ⟨hex, rfl⟩ | ⟨_, rfl⟩
    · exact ⟨hex, rfl⟩
    · exact ⟨by simp [fs_exists, status_cons_self], rfl⟩
  refine ⟨hex1.1, ?_, ?_, ?_, ?_, ?_⟩
  · intro p hp
    rcases makeResultsDir_ok_cases subdirname w w1 h with ⟨_, rfl⟩ | ⟨_, rfl⟩
    · rfl
    · exact status_cons_of_ne w.fs _ p .directory hp
  · rcases makeResultsDir_ok_cases subdirname w w1 h with ⟨_, rfl⟩ | ⟨_, rfl⟩
    · exact ⟨rfl, rfl⟩
    · exact ⟨rfl, rfl⟩
  · intro hex
    rcases makeResultsDir_ok_cases subdirname w w1 h with ⟨_, rfl⟩ | ⟨hno, _⟩
    · rfl
    · rw [hex] at hno
      exact Bool.noConfusion hno
  · intro hno
    rcases makeResultsDir_ok_cases subdirname w w1 h with ⟨hex, _⟩ | ⟨_, rfl⟩
    · rw [hno] at hex
      exact Bool.noConfusion hex
    · exact status_cons_self w.fs _ .directory
  · unfold makeResultsDir
    rw [hex1.2]
    simp only [hex1.1, Bool.not_true]
    rfl

theorem makeResultsDir_creates_only_output_dir_witness :
    makeResultsDir "CPPdecon".toList
        { cwd := "/home/u".toList, dataDir := "/data".toList,
          fs := [("/data".toList, .directory), ("/data/a.tif".toList, .regular)] } =
      .ok { cwd := "/home/u".toList, dataDir := "/data".toList,
            fs := [("/data/CPPdecon".toList, .directory), ("/data".toList, .directory),
              ("/data/a.tif".toList, .regular)] } ∧
      status [("/data/CPPdecon".toList, FileType.directory), ("/data".toList, .directory),
          ("/data/a.tif".toList, .regular)] "/data/a.tif".toList = some .regular :=
  ⟨by rfl,
    ((makeResultsDir_creates_only_output_dir "CPPdecon".toList
      { cwd := "/home/u".toList, dataDir := "/data".toList,
        fs := [("/data".toList, .directory), ("/data/a.tif".toList, .regular)] }
      { cwd := "/home/u".toList, dataDir := "/data".toList,
        fs := [("/data/CPPdecon".toList, .directory), ("/data".toList, .directory),
          ("/data/a.tif".toList, .regular)] } (by rfl)).2.1 "/data/a.tif".toList
      (by decide)).trans (by rfl)⟩

/-! ## Claims about `getDataDir` -/

theorem upToLastSeparator_append_lastElement (p : Path) :
    upToLastSeparator p ++ lastElement p = p := by
  unfold upToLastSeparator lastElement
  rw [← List.reverse_append, List.takeWhile_append_dropWhile, List.reverse_reverse]

theorem stripTrailingSeparators_prefix (p : Path) : stripTrailingSeparators p <+: p := by
  unfold stripTrailingSeparators
  have h := List.dropWhile_suffix (l := p.reverse) is_separator
  have h2 := List.reverse_prefix.mpr h
  rwa [List.reverse_reverse] at h2

theorem upToLastSeparator_split (x name : Path) (hname : ∀ c ∈ name, is_separator c = false) :
    upToLastSeparator (x ++ '/' :: name) = x ++ ['/'] := by
  unfold upToLastSeparator
  have e : (x ++ '/' :: name).reverse = name.reverse ++ ('/' :: x.reverse) := by simp
  rw [e]
  have h1 : ∀ a ∈ name.reverse, (fun c => !is_separator c) a = true := by
    intro a ha
    simp [hname a (List.mem_reverse.mp ha)]
  rw [List.dropWhile_append_of_pos h1]
  simp [is_separator]

theorem stripTrailingSeparators_concat (d : Path) :
    stripTrailingSeparators (d ++ ['/']) = stripTrailingSeparators d := by
  unfold stripTrailingSeparators
  simp [is_separator]

theorem stripTrailingSeparators_of_last (d : Path) (h : d.getLast? ≠ some '/') :
    stripTrailingSeparators d = d := by
  unfold stripTrailingSeparators
  have : d.reverse.dropWhile is_separator = d.reverse := by
    cases hr : d.reverse with
    | nil => rfl
    | cons c cs =>
      have hh : d.reverse.head? = some c := by rw [hr]; rfl
      rw [List.head?_reverse] at hh
      have hc : is_separator c = false := by
        cases hs : is_separator c with
        | false => rfl
        | true =>
          have : c = '/' := by simpa [is_separator] using hs
          rw [hh, this] at h
          exact absurd rfl h
      simp [hc]
  rw [this, List.reverse_reverse]

theorem lastElement_append_ne_nil (x f : Path) (h : lastElement f ≠ []) :
    lastElement (x ++ f) ≠ [] := by
  unfold lastElement at h ⊢
  rw [List.reverse_append]
  cases hr : f.reverse with
  | nil => rw [hr] at h; exact absurd rfl h
  | cons c cs =>
    rw [hr] at h
    have hc : (!is_separator c) = true := by
      by_contra hn
      apply h
      simp [List.takeWhile_cons, hn]
    simp [List.takeWhile_cons, hc]

theorem stripTrailingSeparators_ne_nil (p : Path) (h : lastElement p ≠ []) :
    stripTrailingSeparators p ≠ [] := by
  unfold lastElement at h
  unfold stripTrailingSeparators
  cases hr : p.reverse with
  | nil => rw [hr] at h; exact absurd rfl h
  | cons c cs =>
    rw [hr] at h
    have hc : is_separator c = false := by
      cases hs : is_separator c with
      | false => rfl
      | true => exact absurd (by simp [List.takeWhile_cons, hs]) h
    simp [List.dropWhile_cons, hc]

/-- Removing the file name of an absolute path that has one leaves an absolute path
that is strictly shorter. -/
theorem remove_filename_absolute (a : Path) (habs : is_absolute a = true)
    (hname : lastElement a ≠ []) :
    is_absolute (remove_filename a) = true ∧ (remove_filename a).length < a.length := by
  have hsplit := upToLastSeparator_append_lastElement a
  have hle : 0 < (lastElement a).length := List.length_pos.mpr hname
  have hlen : (upToLastSeparator a).length + (lastElement a).length = a.length := by
    rw [← List.length_append, hsplit]
  have hfront : ∃ rest, upToLastSeparator a = '/' :: rest := by
    cases hf : upToLastSeparator a with
    | nil =>
      rw [hf, List.nil_append] at hsplit
      cases ha : a with
      | nil => rw [ha] at habs; exact absurd habs (by simp [is_absolute])
      | cons c cs =>
        rw [ha] at habs
        have hc : is_separator c = true := by simpa [is_absolute] using habs
        have := lastElement_no_separator a c (by rw [hsplit, ha]; exact List.mem_cons_self _ _)
        rw [hc] at this
        exact Bool.noConfusion this
    | cons c cs =>
      rw [hf] at hsplit
      cases ha : a with
      | nil => rw [ha] at hsplit; exact List.noConfusion hsplit
      | cons c2 cs2 =>
        rw [ha] at hsplit habs
        have hcc : c = c2 := by
          have := List.cons.inj hsplit
          exact this.1
        have hc : is_separator c2 = true := by simpa [is_absolute] using habs
        have : c2 = '/' := by simpa [is_separator] using hc
        exact ⟨cs, by rw [hcc, this]⟩
  obtain ⟨rest, hrest⟩ := hfront
  have hpre := stripTrailingSeparators_prefix (upToLastSeparator a)
  have hplen := hpre.length_le
  unfold remove_filename
  rw [if_neg (stripTrailingSeparators_ne_nil a hname)]
  simp only [hname, if_false]
  by_cases hs : stripTrailingSeparators (upToLastSeparator a) = []
  · have hne : upToLastSeparator a ≠ [] := by rw [hrest]; exact List.cons_ne_nil _ _
    rw [if_pos ⟨hs, hne⟩]
    refine ⟨by decide, ?_⟩
    have : 0 < (upToLastSeparator a).length := List.length_pos.mpr hne
    simp only [List.length_singleton]
    omega
  · rw [if_neg (fun h => hs h.1)]
    refine ⟨?_, by omega⟩
    cases hst : stripTrailingSeparators (upToLastSeparator a) with
    | nil => exact absurd hst hs
    | cons c cs =>
      rw [hst, hrest] at hpre
      obtain ⟨t, ht⟩ := hpre
      have := (List.cons.inj ht).1
      rw [this]
      rfl

theorem is_absolute_append (x y : Path) (h : is_absolute x = true) :
    is_absolute (x ++ y) = true := by
  cases x with
  | nil => exact absurd h (by simp [is_absolute])
  | cons c cs => exact h

/-- The absolute form of a file name that has a final element is an absolute path with
that property too, provided the working directory is absolute. -/
theorem absolute_spec (cwd f : Path) (hcwd : is_absolute cwd = true)
    (hname : lastElement f ≠ []) :
    is_absolute (absolute cwd f) = true ∧ lastElement (absolute cwd f) ≠ [] := by
  have hf : f ≠ [] := by
    intro h
    rw [h] at hname
    exact hname rfl
  unfold absolute
  rw [if_neg hf]
  by_cases habs : is_absolute f = true
  · rw [if_pos habs]
    exact ⟨habs, hname⟩
  · rw [if_neg habs]
    cases f with
    | nil => exact absurd rfl hf
    | cons c cs =>
      have hc : is_separator c = false := by
        cases hs : is_separator c with
        | false => rfl
        | true => exact absurd hs habs
      unfold pathAppend
      simp only [hc]
      cases hl : cwd.getLast? with
      | none => exact ⟨is_absolute_append _ _ hcwd, lastElement_append_ne_nil _ _ hname⟩
      | some l =>
        by_cases hsep : is_separator l = true
        · simp only [hsep, if_true]
          exact ⟨is_absolute_append _ _ hcwd, lastElement_append_ne_nil _ _ hname⟩
        · simp only [hsep]
          refine ⟨is_absolute_append _ _ hcwd, ?_⟩
          have := lastElement_append_ne_nil (cwd ++ ['/']) (c :: cs) hname
          simpa using this

theorem remove_filename_split (d name : Path) (hname : name ≠ [])
    (hsep : ∀ c ∈ name, is_separator c = false) :
    remove_filename (d ++ '/' :: name) =
      if stripTrailingSeparators d = [] then ['/'] else stripTrailingSeparators d := by
  have hl : lastElement (d ++ '/' :: name) = name := by
    have := lastElement_append (d ++ ['/']) name hsep (Or.inr (by simp))
    simpa using this
  unfold remove_filename
  rw [if_neg (stripTrailingSeparators_ne_nil _ (by rw [hl]; exact hname))]
  rw [hl, upToLastSeparator_split d name hsep]
  simp only [hname, if_false, stripTrailingSeparators_concat]
  by_cases hs : stripTrailingSeparators d = []
  · simp [hs]
  · simp [hs]

/-- C8: for a working directory that is absolute and a `filename` with a final element
(no root name involved), after `getDataDir filename` the global `dataDir` is the
absolute form of `filename` with its file name removed; it is an absolute path and not
the file's own path; `cwd` and the file system are untouched.  In particular, for
`filename = d/name` with `d` absolute, `dataDir` is `d`, and for `/name` it is the root
directory. -/
theorem getDataDir_sets_containing_directory (filename : CString) (w : World)
    (hcwd : is_absolute w.cwd = true) (hname : lastElement filename ≠ [])
    (_hroot : has_root_name (absolute w.cwd filename) = false) :
    (getDataDir filename w).dataDir = remove_filename (absolute w.cwd filename) ∧
      is_absolute (getDataDir filename w).dataDir = true ∧
      (getDataDir filename w).dataDir ≠ absolute w.cwd filename ∧
      ((getDataDir filename w).cwd = w.cwd ∧ (getDataDir filename w).fs = w.fs) ∧
      (∀ d name : Path, is_absolute d = true → d.getLast? ≠ some '/' →
        (∀ c ∈ name, is_separator c = false) → filename = d ++ '/' :: name →
          (getDataDir filename w).dataDir = d) ∧
      (∀ name : Path, (∀ c ∈ name, is_separator c = false) → filename = '/' :: name →
        (getDataDir filename w).dataDir = ['/']) := by
  have ha := absolute_spec w.cwd filename hcwd hname
  have hr := remove_filename_absolute (absolute w.cwd filename) ha.1 ha.2
  have hnil : ∀ name : Path, filename = name → name ≠ [] := by
    intro name he h
    rw [he, h] at hname
    exact hname rfl
  refine ⟨rfl, hr.1, ?_, ⟨rfl, rfl⟩, ?_, ?_⟩
  · intro h
    have h2 : (remove_filename (absolute w.cwd filename)).length =
        (absolute w.cwd filename).length := congrArg List.length h
    omega
  · intro d name hd hlast hsep he
    have hne : name ≠ [] := by
      intro h
      rw [he, h] at hname
      apply hname
      simp [lastElement, is_separator]
    have habs : absolute w.cwd filename = d ++ '/' :: name := by
      unfold absolute
      rw [if_neg (hnil _ rfl), if_pos (by rw [he]; exact is_absolute_append _ _ hd), he]
    show remove_filename (absolute w.cwd filename) = d
    rw [habs, remove_filename_split d name hne hsep, stripTrailingSeparators_of_last d hlast]
    have hdne : d ≠ [] := by
      intro h
      rw [h] at hd
      exact absurd hd (by simp [is_absolute])
    rw [if_neg hdne]
  · intro name hsep he
    have hne : name ≠ [] := by
      intro h
      rw [he, h] at hname
      apply hname
      simp [lastElement, is_separator]
    have habs : absolute w.cwd filename = [] ++ '/' :: name := by
      unfold absolute
      rw [if_neg (hnil _ rfl), if_pos (by rw [he]; rfl), he]
      rfl
    show remove_filename (absolute w.cwd filename) = ['/']
    rw [habs, remove_filename_split [] name hne hsep]
    rfl

theorem getDataDir_sets_containing_directory_witness :
    (is_absolute "/home/u".toList = true ∧ lastElement "raw/stack.tif".toList ≠ [] ∧
        has_root_name (absolute "/home/u".toList "raw/stack.tif".toList) = false) ∧
      (getDataDir "raw/stack.tif".toList
        { cwd := "/home/u".toList, dataDir := [], fs := [] }).dataDir =
          "/home/u/raw".toList :=
  ⟨⟨by rfl, by decide, by rfl⟩,
    (getDataDir_sets_containing_directory "raw/stack.tif".toList
      { cwd := "/home/u".toList, dataDir := [], fs := [] } (by rfl) (by decide)
      (by rfl)).1.trans (by rfl)⟩

end Decon
